import Mathlib

/-!
# Verification of `ggl` (global git log)

Shallow embedding of the core of `ggl` (`main.go`): the per-repository log
fetcher `GetGitLog`, the aggregation/sorting pipeline of `Run`, and the
commit renderer `FormatCommit`.

Modelling conventions:
* Machine state that Go obtains from the outside world (the filesystem git
  repositories accessed through go-git) is passed explicitly: each configured
  repository is paired with a `BackendRepo` describing the outcome of the four
  go-git operations the code performs (`PlainOpen`, `Fetch`,
  `ResolveRevision`, `Log`) and the sequence of commits the log iterator
  yields (go-git yields them in committer-time descending order; the model
  takes the yielded sequence as given).
* `time.Time` values are modelled at second granularity (git timestamps have
  second resolution) as an absolute instant `sec : Int` (Unix seconds)
  together with the display offset `offsetMin : Int` in minutes.
  `time.After`/`time.Before` compare instants.
* Strings are Go byte strings over ASCII in all code paths we reason about;
  Go's byte indexing (`parent.String()[:9]`) is modelled as character `take`.
* `sort.Sort` is modelled by its documented contract — the result is a
  permutation of the input that is sorted by `Less`; the Go documentation
  explicitly does **not** guarantee stability.  For concrete refutations we
  additionally embed the deterministic small-slice code path of `sort.Sort`
  (Go ≤ 1.18, `quickSort` for `b-a ≤ 12`: one shell-sort pass with gap 6
  followed by insertion sort).
-/

namespace Ggl

/-! ## Characters and line splitting

`strings.Split(s, "\n")` and line-level reasoning about the formatter output
are modelled on `List Char`.  `splitOnChar c l` splits `l` at every occurrence
of `c`, keeping empty components, and always returns at least one component —
exactly the semantics of Go's `strings.Split` with a one-character separator.
-/

def splitOnChar (c : Char) : List Char → List (List Char)
  | [] => [[]]
  | x :: xs =>
    match splitOnChar c xs with
    | [] => if x = c then [[], []] else [[x]]
    | h :: t => if x = c then [] :: h :: t else (x :: h) :: t

theorem splitOnChar_nil (c : Char) : splitOnChar c [] = [[]] := rfl

theorem splitOnChar_ne_nil (c : Char) (l : List Char) : splitOnChar c l ≠ [] := by
  cases l with
  | nil => simp [splitOnChar]
  | cons x xs =>
    simp only [splitOnChar]
    split <;> split <;> simp

theorem splitOnChar_cons_self (c : Char) (xs : List Char) :
    splitOnChar c (c :: xs) = [] :: splitOnChar c xs := by
  simp only [splitOnChar]
  rcases h : splitOnChar c xs with _ | ⟨h', t⟩
  · exact absurd h (splitOnChar_ne_nil c xs)
  · simp

theorem splitOnChar_cons_ne (c x : Char) (xs : List Char) (hx : x ≠ c) :
    splitOnChar c (x :: xs) =
      (x :: (splitOnChar c xs).headI) :: (splitOnChar c xs).tail := by
  simp only [splitOnChar]
  rcases h : splitOnChar c xs with _ | ⟨h', t⟩
  · exact absurd h (splitOnChar_ne_nil c xs)
  · simp [hx]

/-- Splitting a list that has an explicit separator occurrence splits around
it: the separator closes the last component of the left part. -/
theorem splitOnChar_append_sep (c : Char) (xs ys : List Char) :
    splitOnChar c (xs ++ c :: ys) = splitOnChar c xs ++ splitOnChar c ys := by
  induction xs with
  | nil => rw [List.nil_append, splitOnChar_cons_self, splitOnChar_nil]; rfl
  | cons x xs ih =>
    by_cases hx : x = c
    · subst hx
      rw [List.cons_append, splitOnChar_cons_self, splitOnChar_cons_self, ih,
        List.cons_append]
    · rw [List.cons_append, splitOnChar_cons_ne c x _ hx, splitOnChar_cons_ne c x _ hx, ih]
      rcases h : splitOnChar c xs with _ | ⟨h', t⟩
      · exact absurd h (splitOnChar_ne_nil c xs)
      · simp

theorem splitOnChar_of_not_mem {c : Char} {xs : List Char} (h : c ∉ xs) :
    splitOnChar c xs = [xs] := by
  induction xs with
  | nil => rfl
  | cons x xs ih =>
    have hx : x ≠ c := fun hc => h (hc ▸ List.mem_cons_self x xs)
    have hxs : c ∉ xs := fun hc => h (List.mem_cons_of_mem x hc)
    rw [splitOnChar_cons_ne c x xs hx, ih hxs]
    simp

/-- No component of a split contains the separator. -/
theorem not_mem_of_mem_splitOnChar {c : Char} {xs : List Char} {m : List Char}
    (hm : m ∈ splitOnChar c xs) : c ∉ m := by
  induction xs generalizing m with
  | nil =>
    rw [splitOnChar_nil] at hm
    simp only [List.mem_singleton] at hm
    simp [hm]
  | cons x xs ih =>
    have hhead : (splitOnChar c xs).headI ∈ splitOnChar c xs := by
      rcases h : splitOnChar c xs with _ | ⟨h', t⟩
      · exact absurd h (splitOnChar_ne_nil c xs)
      · simp
    have htail : ∀ m', m' ∈ (splitOnChar c xs).tail → m' ∈ splitOnChar c xs := by
      intro m' hm'
      rcases h : splitOnChar c xs with _ | ⟨h', t⟩
      · exact absurd h (splitOnChar_ne_nil c xs)
      · rw [h] at hm'
        exact List.mem_cons_of_mem _ hm'
    by_cases hx : x = c
    · subst hx
      rw [splitOnChar_cons_self] at hm
      rcases List.mem_cons.mp hm with hm | hm
      · simp [hm]
      · exact ih hm
    · rw [splitOnChar_cons_ne c x xs hx] at hm
      rcases List.mem_cons.mp hm with hm | hm
      · subst hm
        intro hc
        rcases List.mem_cons.mp hc with hc | hc
        · exact hx hc.symm
        · exact ih hhead hc
      · exact ih (htail m hm)

/-- Components of the split of a prefix (`take k`) of a list, compared with
the components of the split of the full list: the first component is a prefix
of the first component, and every later component is a prefix of some later
component. -/
theorem splitOnChar_take_rel (c : Char) (l : List Char) (k : Nat) :
    (splitOnChar c (l.take k)).headI <+: (splitOnChar c l).headI ∧
      ∀ m ∈ (splitOnChar c (l.take k)).tail,
        ∃ m' ∈ (splitOnChar c l).tail, m <+: m' := by
  induction l generalizing k with
  | nil =>
    constructor
    · simp [splitOnChar_nil]
    · intro m hm
      simp [splitOnChar_nil] at hm
  | cons x xs ih =>
    cases k with
    | zero =>
      constructor
      · simp [splitOnChar_nil]
      · intro m hm
        simp [splitOnChar_nil] at hm
    | succ k =>
      have hne := splitOnChar_ne_nil c xs
      have hne' := splitOnChar_ne_nil c (xs.take k)
      by_cases hx : x = c
      · rw [hx, List.take_succ_cons, splitOnChar_cons_self, splitOnChar_cons_self]
        refine ⟨by simp, ?_⟩
        intro m hm
        simp only [List.tail_cons] at hm ⊢
        rcases List.exists_cons_of_ne_nil hne' with ⟨h0, t0, h0eq⟩
        rw [h0eq] at hm
        rcases List.mem_cons.mp hm with hm | hm
        · subst hm
          refine ⟨(splitOnChar c xs).headI, ?_, ?_⟩
          · rcases List.exists_cons_of_ne_nil hne with ⟨h1, t1, h1eq⟩
            rw [h1eq]; simp
          · have := (ih k).1
            rw [h0eq] at this
            simpa using this
        · rcases (ih k).2 m (by rw [h0eq]; simpa using hm) with ⟨m', hm', hpre⟩
          refine ⟨m', ?_, hpre⟩
          rcases List.exists_cons_of_ne_nil hne with ⟨h1, t1, h1eq⟩
          rw [h1eq] at hm' ⊢
          simpa using List.mem_cons_of_mem _ (by simpa using hm')
      · rw [List.take_succ_cons, splitOnChar_cons_ne c x _ hx, splitOnChar_cons_ne c x _ hx]
        constructor
        · exact List.cons_prefix_cons.mpr ⟨rfl, (ih k).1⟩
        · intro m hm
          simp only [List.tail_cons] at hm
          exact (ih k).2 m hm

/-- Every component of the split of `l.take k` is a prefix of some component
of the split of `l`. -/
theorem mem_splitOnChar_take (c : Char) (l : List Char) (k : Nat) (m : List Char)
    (hm : m ∈ splitOnChar c (l.take k)) :
    ∃ m' ∈ splitOnChar c l, m <+: m' := by
  have hne := splitOnChar_ne_nil c l
  have hne' := splitOnChar_ne_nil c (l.take k)
  rcases List.exists_cons_of_ne_nil hne' with ⟨h0, t0, h0eq⟩
  rcases List.exists_cons_of_ne_nil hne with ⟨h1, t1, h1eq⟩
  rw [h0eq] at hm
  rcases List.mem_cons.mp hm with hm | hm
  · subst hm
    refine ⟨(splitOnChar c l).headI, ?_, ?_⟩
    · rw [h1eq]; simp
    · have := (splitOnChar_take_rel c l k).1
      rw [h0eq] at this
      simpa using this
  · rcases (splitOnChar_take_rel c l k).2 m (by rw [h0eq]; simpa using hm) with ⟨m', hm', hpre⟩
    refine ⟨m', ?_, hpre⟩
    rw [h1eq] at hm' ⊢
    exact List.mem_cons_of_mem _ (by simpa using hm')

/-! ## `strings.TrimSpace`

Go's `strings.TrimSpace` removes leading and trailing Unicode white space.
The code paths we verify only ever trim ASCII/Latin-1 white space, so the
white-space predicate is the Latin-1 fragment of Go's `unicode.IsSpace`. -/

def goIsSpace (ch : Char) : Bool :=
  ch = ' ' || ch = '\t' || ch = '\n' || ch.val = 11 || ch.val = 12 || ch = '\r'
    || ch.val = 0x85 || ch.val = 0xA0

def trimRight (l : List Char) : List Char := (l.reverse.dropWhile goIsSpace).reverse

/-- `strings.TrimSpace`, on the character list of the string. -/
def trimSpaceChars (l : List Char) : List Char := trimRight (l.dropWhile goIsSpace)

theorem dropWhile_append_of_exists {p : Char → Bool} {u v : List Char}
    (h : ∃ a ∈ u, p a = false) :
    List.dropWhile p (u ++ v) = List.dropWhile p u ++ v := by
  induction u with
  | nil => simp at h
  | cons a u ih =>
    by_cases hp : p a
    · rcases h with ⟨b, hb, hbp⟩
      rcases List.mem_cons.mp hb with hb | hb
      · subst hb; rw [hp] at hbp; cases hbp
      · simp [List.dropWhile, hp, ih ⟨b, hb, hbp⟩]
    · simp [List.dropWhile, hp]

theorem trimRight_append_of_exists {P B : List Char} (h : ∃ a ∈ B, goIsSpace a = false) :
    trimRight (P ++ B) = P ++ trimRight B := by
  have h' : ∃ a ∈ B.reverse, goIsSpace a = false := by
    rcases h with ⟨a, ha, hap⟩
    exact ⟨a, List.mem_reverse.mpr ha, hap⟩
  rw [trimRight, List.reverse_append, dropWhile_append_of_exists h',
    List.reverse_append, List.reverse_reverse, trimRight]

theorem trimRight_append_last (A : List Char) (x : Char) (hx : goIsSpace x = false) :
    trimRight (A ++ [x, '\n']) = A ++ [x] := by
  have hrev : (A ++ [x, '\n']).reverse = '\n' :: x :: A.reverse := by simp
  rw [trimRight, hrev, List.dropWhile_cons_of_pos (by decide : goIsSpace '\n' = true),
    List.dropWhile_cons_of_neg (by simp [hx])]
  simp

theorem dropWhile_suffix_self (p : Char → Bool) (l : List Char) :
    l.dropWhile p <:+ l := by
  induction l with
  | nil => simp
  | cons a l ih =>
    by_cases hp : p a
    · rw [List.dropWhile_cons_of_pos hp]
      exact ih.trans (List.suffix_cons a l)
    · rw [List.dropWhile_cons_of_neg hp]

theorem trimRight_eq_take (l : List Char) : ∃ k, trimRight l = l.take k := by
  have hsuf : l.reverse.dropWhile goIsSpace <:+ l.reverse := dropWhile_suffix_self _ _
  have hpre : trimRight l <+: l := by
    have := List.reverse_prefix.mpr hsuf
    rwa [List.reverse_reverse] at this
  exact ⟨(trimRight l).length, List.prefix_iff_eq_take.mp hpre⟩

/-! ## Data model (`main.go` lines 53–73)

`Repository`, `Config`, `Commit` mirror the Go structs.  `ObjCommit` models
the fields of go-git's `object.Commit` that the program reads: full hash
(`Hash.String()`, a 40-character hex string), parent hashes, author and
committer signatures, and the raw message. -/

structure GTime where
  sec : Int
  offsetMin : Int
  deriving DecidableEq, Repr

/-- `time.Time.Before` (instant comparison; second granularity). -/
def GTime.before (a b : GTime) : Bool := a.sec < b.sec

/-- `time.Time.After` (instant comparison; second granularity). -/
def GTime.after (a b : GTime) : Bool := b.sec < a.sec

structure GoSignature where
  name : String
  email : String
  when : GTime
  deriving DecidableEq, Repr

structure ObjCommit where
  hash : String
  parentHashes : List String
  author : GoSignature
  committer : GoSignature
  message : String
  deriving DecidableEq, Repr

structure Repository where
  name : String
  path : String
  remote : String
  branch : String
  fetch : Bool
  deriving DecidableEq, Repr

structure Config where
  repositories : List Repository
  root : String
  deriving DecidableEq, Repr

structure Commit where
  repository : Repository
  commit : ObjCommit
  subject : String
  shortHash : String
  deriving DecidableEq, Repr

/-- `Commits.Less` (main.go line 77): `c[i].Commit.Author.When.After(c[j].…)`. -/
def gglLess (a b : Commit) : Bool := a.commit.author.when.after b.commit.author.when

/-! ## Go time formatting (`Time.Format` with layout `"Mon Jan 2 15:04:05 2006 -0700"`)

Implemented from the civil-calendar decomposition of the Unix instant shifted
by the location offset.  Only concrete evaluation and the absence of newline
characters are ever needed about this function. -/

def decDigit (n : Nat) : Char := Char.ofNat (48 + n % 10)

def pad2 (n : Nat) : List Char := [decDigit (n / 10), decDigit n]

def pad4 (n : Nat) : List Char :=
  [decDigit (n / 1000), decDigit (n / 100), decDigit (n / 10), decDigit n]

/-- Day of month in layout `"2"`: no zero padding. -/
def dayChars (n : Nat) : List Char :=
  if 10 ≤ n then [decDigit (n / 10), decDigit n] else [decDigit n]

def weekdayNames : List (List Char) :=
  ["Sun".data, "Mon".data, "Tue".data, "Wed".data, "Thu".data, "Fri".data, "Sat".data]

def monthNames : List (List Char) :=
  ["Jan".data, "Feb".data, "Mar".data, "Apr".data, "May".data, "Jun".data,
   "Jul".data, "Aug".data, "Sep".data, "Oct".data, "Nov".data, "Dec".data]

/-- Civil date from days since the Unix epoch (standard Gregorian
decomposition). -/
def civilFromDays (z : Int) : Int × Nat × Nat :=
  let z' := z + 719468
  let era := Int.fdiv z' 146097
  let doe := (z' - era * 146097).toNat
  let yoe := (doe - doe / 1460 + doe / 36524 - doe / 146096) / 365
  let doy := doe - (365 * yoe + yoe / 4 - yoe / 100)
  let mp := (5 * doy + 2) / 153
  let d := doy - (153 * mp + 2) / 5 + 1
  let m := if mp < 10 then mp + 3 else mp - 9
  (era * 400 + yoe + (if m ≤ 2 then 1 else 0), m, d)

def goFormatTime (t : GTime) : List Char :=
  let lsec := t.sec + t.offsetMin * 60
  let days := Int.fdiv lsec 86400
  let sod := (lsec - days * 86400).toNat
  let wd := ((days + 4).emod 7).toNat
  let ymd := civilFromDays days
  List.flatten
    [weekdayNames.getD wd [], " ".data,
     monthNames.getD (ymd.2.1 - 1) [], " ".data,
     dayChars ymd.2.2, " ".data,
     pad2 (sod / 3600), ":".data, pad2 (sod / 60 % 60), ":".data, pad2 (sod % 60),
     " ".data, pad4 ymd.1.toNat,
     " ".data, (if 0 ≤ t.offsetMin then "+".data else "-".data),
     pad2 (t.offsetMin.natAbs / 60), pad2 (t.offsetMin.natAbs % 60)]

theorem decDigit_ne_newline (n : Nat) : decDigit n ≠ '\n' := by
  have h : ∀ k < 10, Char.ofNat (48 + k) ≠ '\n' := by decide
  exact h (n % 10) (Nat.mod_lt n (by omega))

theorem newline_not_mem_pad2 (n : Nat) : '\n' ∉ pad2 n := by
  intro h
  simp only [pad2, List.mem_cons, List.not_mem_nil, or_false] at h
  rcases h with h | h <;> exact decDigit_ne_newline _ h.symm

theorem newline_not_mem_goFormatTime (t : GTime) : '\n' ∉ goFormatTime t := by
  intro hmem
  have hday : ∀ n, '\n' ∉ dayChars n := by
    intro n h
    by_cases h10 : 10 ≤ n
    · simp only [dayChars, if_pos h10, List.mem_cons, List.not_mem_nil, or_false] at h
      rcases h with h | h <;> exact decDigit_ne_newline _ h.symm
    · simp only [dayChars, if_neg h10, List.mem_cons, List.not_mem_nil, or_false] at h
      exact decDigit_ne_newline _ h.symm
  have hpad4 : ∀ n, '\n' ∉ pad4 n := by
    intro n h
    simp only [pad4, List.mem_cons, List.not_mem_nil, or_false] at h
    rcases h with h | h | h | h <;> exact decDigit_ne_newline _ h.symm
  have hwd : ∀ i, '\n' ∉ weekdayNames.getD i [] := by
    intro i h
    have hall : ∀ l ∈ weekdayNames, '\n' ∉ l := by decide
    rcases hgd : weekdayNames.get? i with _ | l
    · rw [List.getD, hgd] at h; simp at h
    · rw [List.getD, hgd] at h; exact hall l (List.get?_mem hgd) h
  have hmn : ∀ i, '\n' ∉ monthNames.getD i [] := by
    intro i h
    have hall : ∀ l ∈ monthNames, '\n' ∉ l := by decide
    rcases hgd : monthNames.get? i with _ | l
    · rw [List.getD, hgd] at h; simp at h
    · rw [List.getD, hgd] at h; exact hall l (List.get?_mem hgd) h
  rw [goFormatTime, List.mem_flatten] at hmem
  rcases hmem with ⟨p, hp, hnl⟩
  fin_cases hp
  · exact hwd _ hnl
  · simp at hnl
  · exact hmn _ hnl
  · simp at hnl
  · exact hday _ hnl
  · simp at hnl
  · exact newline_not_mem_pad2 _ hnl
  · simp at hnl
  · exact newline_not_mem_pad2 _ hnl
  · simp at hnl
  · exact newline_not_mem_pad2 _ hnl
  · simp at hnl
  · exact hpad4 _ hnl
  · simp at hnl
  · split at hnl <;> simp at hnl
  · exact newline_not_mem_pad2 _ hnl
  · exact newline_not_mem_pad2 _ hnl

/-! ## GitBackend outcomes

The four go-git operations `GetGitLog` performs are external; a `BackendRepo`
records their outcomes for one repository: `openResult`/`resolveResult`/
`logResult` are `some e` on failure, and `history` is the sequence of commits
the log iterator (`cIter.Next`) yields, in the order go-git produces them
(`LogOrderCommitterTime`: committer time descending), ending in `io.EOF`. -/

inductive GitError
  | openErr (msg : String)
  | fetchErr (msg : String)
  | resolveErr (msg : String)
  | logErr (msg : String)
  deriving DecidableEq, Repr

inductive FetchResult
  | ok
  | alreadyUpToDate
  | failed (e : GitError)
  deriving DecidableEq, Repr

structure BackendRepo where
  openResult : Option GitError
  fetchResult : FetchResult
  resolveResult : Option GitError
  logResult : Option GitError
  history : List ObjCommit
  deriving DecidableEq, Repr

def Backend := Repository → BackendRepo

/-! ## `GetGitLog` (main.go lines 96–148) -/

def PAGE_SIZE : Nat := 1000

/-- Construction of one `Commit` record inside the loop (lines 137–145):
the message is split on `"\n"` and the first component becomes the subject.
The `ShortHash` field is not assigned there and keeps Go's zero value `""`. -/
def mkCommit (repo : Repository) (c : ObjCommit) : Commit :=
  { repository := repo
    commit := c
    subject := String.mk (splitOnChar '\n' c.message.data).headI
    shortHash := "" }

/-- The `for i := 1; i <= PAGE_SIZE; i++` loop (lines 126–146): stop on
`io.EOF` (end of `history`), stop when the author time is `Before(until)`,
otherwise append, for at most `fuel` iterations. -/
def walkLog (repo : Repository) (untilTime : Int) : Nat → List ObjCommit → List Commit
  | 0, _ => []
  | _ + 1, [] => []
  | n + 1, c :: rest =>
    if c.author.when.sec < untilTime then []
    else mkCommit repo c :: walkLog repo untilTime n rest

/-- `GetGitLog(config, repo, until)`: mirrors the Go control flow, returning
the pair (commits, error) of the two Go return values (`nil` error = `none`).
The `config` argument carries the root path used by `PlainOpen`; the open
outcome itself is `be.openResult`. -/
def GetGitLog (fetchFlag : Bool) (config : Config) (repo : Repository)
    (be : BackendRepo) (untilTime : Int) : List Commit × Option GitError :=
  match be.openResult with
  | some e => ([], some e)
  | none =>
    match (if fetchFlag && repo.fetch then be.fetchResult else .ok) with
    | .failed e => ([], some e)
    | _ =>
      match be.resolveResult with
      | some e => ([], some e)
      | none =>
        match be.logResult with
        | some e => ([], some e)
        | none => (walkLog repo untilTime PAGE_SIZE be.history, none)

/-- All four backend operations succeed for this repository (fetch is only
consulted when both fetch flags are set, matching line 106). -/
def backendOK (fetchFlag : Bool) (repo : Repository) (be : BackendRepo) : Prop :=
  be.openResult = none ∧ be.resolveResult = none ∧ be.logResult = none ∧
    ∀ e, fetchFlag && repo.fetch → be.fetchResult ≠ .failed e

/-! ## `sort.Sort` (main.go line 212)

`sort.Sort` promises a permutation of its input that is sorted by `Less`;
the Go documentation states the sort is *not* guaranteed to be stable.
`SortSortOK input output` is that contract for `Commits` with `gglLess`.

`goSortLE12` is the deterministic code path the Go ≤ 1.18 runtime actually
executes for slices of length at most 12 (`quickSort` skips its partition
loop and runs one shell-sort pass with gap 6 followed by insertion sort);
it witnesses that the unstable behaviour is reachable. -/

def sortedByLess (l : List Commit) : Prop :=
  l.Pairwise (fun a b => gglLess b a = false)

def SortSortOK (input output : List Commit) : Prop :=
  output.Perm input ∧ sortedByLess output

instance (l : List Commit) : Decidable (sortedByLess l) := by
  unfold sortedByLess; infer_instance

instance (input output : List Commit) : Decidable (SortSortOK input output) := by
  unfold SortSortOK; infer_instance

/-- Swap two positions of a list (Go's `data.Swap(i, j)`). -/
def swapAt (l : List α) (i j : Nat) : List α :=
  match l.get? i, l.get? j with
  | some a, some b => (l.set i b).set j a
  | _, _ => l

/-- One step of the shell-sort pass: `if data.Less(i, i-6) { data.Swap(i, i-6) }`. -/
def gapStep (less : α → α → Bool) (l : List α) (i : Nat) : List α :=
  match l.get? i, l.get? (i - 6) with
  | some a, some b => if less a b then swapAt l i (i - 6) else l
  | _, _ => l

/-- The `for i := a + 6; i < b; i++` shell-sort pass, driven by fuel (the
fuel `l.length` always suffices since `i` starts at 6). -/
def gapPassAux (less : α → α → Bool) : Nat → Nat → List α → List α
  | 0, _, l => l
  | fuel + 1, i, l => if i < l.length then gapPassAux less fuel (i + 1) (gapStep less l i) else l

def gapPass (less : α → α → Bool) (l : List α) : List α := gapPassAux less l.length 6 l

/-- Insertion of one element into a sorted prefix: functional rendering of
Go's `insertionSort` inner loop `for j := i; j > a && data.Less(j, j-1); j--`
(the element sinks while strictly `less` than its left neighbour, i.e. it
lands before the first element it is strictly `less` than). -/
def goInsert (less : α → α → Bool) (x : α) : List α → List α
  | [] => [x]
  | y :: ys => if less x y then x :: y :: ys else y :: goInsert less x ys

def goInsertionSort (less : α → α → Bool) (l : List α) : List α :=
  l.foldl (fun acc x => goInsert less x acc) []

/-- `sort.Sort` as executed by Go ≤ 1.18 on slices of length ≤ 12:
no partitioning (`b-a > 12` fails), one gap-6 shell pass, insertion sort.
Slices of length ≤ 1 are returned unchanged (`b-a > 1` fails). -/
def goSortLE12 (less : α → α → Bool) (l : List α) : List α :=
  if 1 < l.length then goInsertionSort less (gapPass less l) else l

/-! ## `Run` (main.go lines 182–219) -/

inductive RunError
  | configErr (msg : String)
  | inputErr
  | gitErr (e : GitError)
  deriving DecidableEq, Repr

/-- `time.Parse("2006-01-02", s)`: exactly `YYYY-MM-DD` with zero-padded
two-digit month and day and a four-digit year, month range 1–12 and day
range checked against the month length (leap years included).  Returns the
parsed calendar date. -/
def isLeapYear (y : Nat) : Bool := y % 4 = 0 && (y % 100 ≠ 0 || y % 400 = 0)

def daysInMonth (y m : Nat) : Nat :=
  if m = 2 then (if isLeapYear y then 29 else 28)
  else if m = 4 || m = 6 || m = 9 || m = 11 then 30
  else 31

def digitVal (c : Char) : Option Nat :=
  if c.isDigit then some (c.toNat - 48) else none

def parseDate (s : String) : Option (Nat × Nat × Nat) :=
  match s.data with
  | [y1, y2, y3, y4, s1, m1, m2, s2, d1, d2] =>
    if s1 = '-' ∧ s2 = '-' then
      match digitVal y1, digitVal y2, digitVal y3, digitVal y4,
            digitVal m1, digitVal m2, digitVal d1, digitVal d2 with
      | some a, some b, some c, some d, some e, some f, some g, some h =>
        let y := a * 1000 + b * 100 + c * 10 + d
        let m := e * 10 + f
        let dd := g * 10 + h
        if 1 ≤ m ∧ m ≤ 12 ∧ 1 ≤ dd ∧ dd ≤ daysInMonth y m then
          some (y, m, dd)
        else none
      | _, _, _, _, _, _, _, _ => none
    else none
  | _ => none

/-- Days since the Unix epoch of a civil date (inverse of `civilFromDays`). -/
def daysFromCivil (y m d : Nat) : Int :=
  let y' : Int := if m ≤ 2 then (y : Int) - 1 else (y : Int)
  let era := Int.fdiv y' 400
  let yoe := (y' - era * 400).toNat
  let mp := if 2 < m then m - 3 else m + 9
  let doy := (153 * mp + 2) / 5 + d - 1
  let doe := yoe * 365 + yoe / 4 - yoe / 100 + doy
  era * 146097 + (doe : Int) - 719468

/-- The `until` computation of `Run` (lines 190–200): empty flag means
`time.Now().Add(-168h)`; otherwise `time.Parse("2006-01-02", …)` (UTC
midnight), a parse failure being the fatal input error. -/
def resolveUntil (untilFlag : String) (now : Int) : Except RunError Int :=
  if untilFlag = "" then .ok (now - 604800)
  else
    match parseDate untilFlag with
    | some (y, m, d) => .ok (daysFromCivil y m d * 86400)
    | none => .error .inputErr

/-- The repository loop of `Run` (lines 202–210).  Returns the list of
repositories for which `GetGitLog` was invoked (each invocation begins with
`git.PlainOpen`) together with either the concatenation of all per-repository
commit lists or the first error, which aborts the loop. -/
def collectRepos (fetchFlag : Bool) (config : Config) (be : Backend) (untilTime : Int) :
    List Repository → List Repository × Except GitError (List Commit)
  | [] => ([], .ok [])
  | r :: rs =>
    match GetGitLog fetchFlag config r (be r) untilTime with
    | (_, some e) => ([r], .error e)
    | (cs, none) =>
      match collectRepos fetchFlag config be untilTime rs with
      | (tr, .error e) => (r :: tr, .error e)
      | (tr, .ok rest) => (r :: tr, .ok (cs ++ rest))

/-- `Run` up to (and excluding) the `sort.Sort` call: config comes in as the
result of `loadConfig`, the flag parsing is ambient (`Fetch`, `Until`), and
`now` is the wall clock.  Produces the trace of opened repositories and
either the unsorted concatenated commit list `allCommits` or the error that
aborted the run. -/
def RunM (fetchFlag : Bool) (untilFlag : String) (cfgRes : Except RunError Config)
    (be : Backend) (now : Int) : List Repository × Except RunError (List Commit) :=
  match cfgRes with
  | .error e => ([], .error e)
  | .ok config =>
    match resolveUntil untilFlag now with
    | .error e => ([], .error e)
    | .ok untilTime =>
      match collectRepos fetchFlag config be untilTime config.repositories with
      | (tr, .error e) => (tr, .error (.gitErr e))
      | (tr, .ok all) => (tr, .ok all)

/-- The sorted aggregated log of one run: `Run` reached `sort.Sort` with the
concatenated list and `out` is a result permitted by the `sort.Sort`
contract. -/
def AggregatedProduces (fetchFlag : Bool) (untilFlag : String)
    (cfgRes : Except RunError Config) (be : Backend) (now : Int)
    (out : List Commit) : Prop :=
  ∃ all, (RunM fetchFlag untilFlag cfgRes be now).2 = .ok all ∧ SortSortOK all out

/-! ## `FormatCommit` (main.go lines 150–180)

The writer `w` is modelled by the concatenation of everything printed, as a
character list.  Note `fmt.Fprintln(w, "   ", line)` writes the three-space
operand, then the separator space `Fprintln` inserts between operands, then
the line — four leading characters in total.  At the end the whole block is
`strings.TrimSpace`d and a single newline is appended. -/

/-- The `Merge:` line (lines 158–164): `"Merge:"` followed by one
` <parent hash abbreviated to its first 9 bytes>` per parent. -/
def mergeLineChars (parents : List String) : List Char :=
  "Merge:".data ++ (parents.map (fun p => ' ' :: p.data.take 9)).flatten

/-- Everything written to `w` before `TrimSpace` (lines 153–176). -/
def bodyChars (c : Commit) : List Char :=
  "commit ".data ++ c.commit.hash.data ++ '\n' ::
  ("Repository: ".data ++ c.repository.name.data ++ '\n' ::
  ((if 1 < c.commit.parentHashes.length
      then mergeLineChars c.commit.parentHashes ++ ['\n'] else []) ++
  ("Author: ".data ++ c.commit.author.name.data ++ " <".data ++
      c.commit.author.email.data ++ ">".data ++ '\n' ::
  ("Date:   ".data ++ goFormatTime c.commit.author.when ++ '\n' :: '\n' ::
  ((splitOnChar '\n' c.commit.message.data).map
      (fun line => "   ".data ++ ' ' :: line ++ ['\n'])).flatten))))

/-- `FormatCommit` output (lines 178–179): `TrimSpace`, then one `"\n"`. -/
def formatCommitChars (c : Commit) : List Char :=
  trimSpaceChars (bodyChars c) ++ ['\n']

def FormatCommit (c : Commit) : String := String.mk (formatCommitChars c)

def lineCommit (c : Commit) : List Char := "commit ".data ++ c.commit.hash.data

def lineRepo (c : Commit) : List Char := "Repository: ".data ++ c.repository.name.data

def lineAuthor (c : Commit) : List Char :=
  "Author: ".data ++ c.commit.author.name.data ++ " <".data ++
    c.commit.author.email.data ++ ">".data

def lineDate (c : Commit) : List Char :=
  "Date:   ".data ++ goFormatTime c.commit.author.when

/-- The message lines as written: the three-space literal plus `Fprintln`'s
separator space — four leading spaces per line. -/
def msgLines (c : Commit) : List (List Char) :=
  (splitOnChar '\n' c.commit.message.data).map (fun line => "    ".data ++ line)

def headerLines (c : Commit) : List (List Char) :=
  [lineCommit c, lineRepo c]
  ++ (if 1 < c.commit.parentHashes.length
        then [mergeLineChars c.commit.parentHashes] else [])
  ++ [lineAuthor c, lineDate c, []]

/-- The lines `FormatCommit` writes before trimming, in order. -/
def rawLines (c : Commit) : List (List Char) := headerLines c ++ msgLines c

def joinLines (L : List (List Char)) : List Char :=
  (L.map (fun l => l ++ ['\n'])).flatten

theorem joinLines_append (A B : List (List Char)) :
    joinLines (A ++ B) = joinLines A ++ joinLines B := by
  simp [joinLines]

theorem joinLines_cons (l : List Char) (L : List (List Char)) :
    joinLines (l :: L) = l ++ '\n' :: joinLines L := by
  simp [joinLines]

theorem bodyChars_eq_joinLines (c : Commit) : bodyChars c = joinLines (rawLines c) := by
  have hmsg : (fun line : List Char => "   ".data ++ ' ' :: line ++ ['\n'])
      = fun line => ("    ".data ++ line) ++ ['\n'] := funext fun line => rfl
  rw [bodyChars, rawLines, headerLines, msgLines, lineCommit, lineRepo, lineAuthor, lineDate]
  by_cases hm : 1 < c.commit.parentHashes.length <;>
    simp only [hm, joinLines, List.append_assoc, hmsg, if_true, if_false,
      List.map_append, List.flatten_append, List.map_cons, List.flatten_cons,
      List.map_nil, List.flatten_nil, List.cons_append, List.nil_append,
      List.append_nil, String.data] <;>
    simp [List.append_assoc] <;>
    exact congrArg List.flatten (List.map_congr_left fun a ha => rfl)

theorem splitOnChar_joinLines (L : List (List Char)) (h : ∀ l ∈ L, '\n' ∉ l) :
    splitOnChar '\n' (joinLines L) = L ++ [[]] := by
  induction L with
  | nil => simp [joinLines, splitOnChar_nil]
  | cons l L ih =>
    rw [joinLines_cons, splitOnChar_append_sep,
      splitOnChar_of_not_mem (h l (List.mem_cons_self l L)),
      ih fun l' hl' => h l' (List.mem_cons_of_mem l hl')]
    simp

/-- The string has no newline character. -/
def noNL (s : String) : Prop := '\n' ∉ s.data

instance (s : String) : Decidable (noNL s) := by unfold noNL; infer_instance

theorem mergeLineChars_no_newline {parents : List String}
    (hp : ∀ p ∈ parents, noNL p) : '\n' ∉ mergeLineChars parents := by
  intro h
  rcases List.mem_append.mp h with h | h
  · simp [String.data] at h
  · rcases List.mem_flatten.mp h with ⟨piece, hpiece, hmem⟩
    rcases List.mem_map.mp hpiece with ⟨p, hpmem, rfl⟩
    rcases List.mem_cons.mp hmem with h' | h'
    · cases h'
    · exact hp p hpmem (List.mem_of_mem_take h')

theorem rawLines_no_newline (c : Commit) (hh : noNL c.commit.hash)
    (hr : noNL c.repository.name) (ha : noNL c.commit.author.name)
    (he : noNL c.commit.author.email)
    (hp : ∀ p ∈ c.commit.parentHashes, noNL p) :
    ∀ l ∈ rawLines c, '\n' ∉ l := by
  intro l hl hnl
  rw [rawLines, headerLines] at hl
  rcases List.mem_append.mp hl with hl | hl
  · rcases List.mem_append.mp hl with hl | hl
    · rcases List.mem_append.mp hl with hl | hl
      · rcases List.mem_cons.mp hl with hl | hl
        · subst hl
          rw [lineCommit] at hnl
          rcases List.mem_append.mp hnl with h | h
          · simp [String.data] at h
          · exact hh h
        · rcases List.mem_cons.mp hl with hl | hl
          · subst hl
            rw [lineRepo] at hnl
            rcases List.mem_append.mp hnl with h | h
            · simp [String.data] at h
            · exact hr h
          · simp at hl
      · by_cases hm : 1 < c.commit.parentHashes.length
        · rw [if_pos hm] at hl
          rcases List.mem_cons.mp hl with hl | hl
          · subst hl
            exact mergeLineChars_no_newline hp hnl
          · simp at hl
        · rw [if_neg hm] at hl
          simp at hl
    · rcases List.mem_cons.mp hl with hl | hl
      · subst hl
        rw [lineAuthor] at hnl
        rcases List.mem_append.mp hnl with h | h
        · rcases List.mem_append.mp h with h | h
          · rcases List.mem_append.mp h with h | h
            · rcases List.mem_append.mp h with h | h
              · simp [String.data] at h
              · exact ha h
            · simp [String.data] at h
          · exact he h
        · simp [String.data] at h
      · rcases List.mem_cons.mp hl with hl | hl
        · subst hl
          rw [lineDate] at hnl
          rcases List.mem_append.mp hnl with h | h
          · simp [String.data] at h
          · exact newline_not_mem_goFormatTime _ h
        · rcases List.mem_cons.mp hl with hl | hl
          · subst hl; simp at hnl
          · simp at hl
  · rw [msgLines] at hl
    rcases List.mem_map.mp hl with ⟨line, hline, rfl⟩
    rcases List.mem_append.mp hnl with h | h
    · simp [String.data] at h
    · exact not_mem_of_mem_splitOnChar hline h

/-! ## Line structure of the formatter output -/

theorem trimSpaceChars_eq_trimRight {l : List Char}
    (h : ∃ x rest, l = x :: rest ∧ goIsSpace x = false) :
    trimSpaceChars l = trimRight l := by
  rcases h with ⟨x, rest, rfl, hx⟩
  rw [trimSpaceChars, List.dropWhile_cons_of_neg (by simp [hx])]

/-- Non-space character in the part of the block written after the `Merge:`
line: the `Author: ` line always starts with `A`. -/
theorem authorA_mem_tail (c : Commit) :
    ∃ a ∈ joinLines ([lineAuthor c, lineDate c, []] ++ msgLines c), goIsSpace a = false := by
  refine ⟨'A', ?_, by decide⟩
  rw [show ([lineAuthor c, lineDate c, []] ++ msgLines c)
      = lineAuthor c :: ([lineDate c, []] ++ msgLines c) from rfl, joinLines_cons]
  refine List.mem_append_left _ ?_
  rw [lineAuthor]
  exact List.mem_append_left _ (List.mem_append_left _ (List.mem_append_left _
    (List.mem_append_left _ (by decide))))

/-- With a merge commit, the formatted block decomposes as the two header
lines, the `Merge:` line, and a trimmed remainder. -/
theorem format_merge_decomp (c : Commit) (hm : 1 < c.commit.parentHashes.length) :
    formatCommitChars c =
      lineCommit c ++ '\n' :: (lineRepo c ++ '\n' ::
        (mergeLineChars c.commit.parentHashes ++ '\n' ::
          (trimRight (joinLines ([lineAuthor c, lineDate c, []] ++ msgLines c)) ++ ['\n']))) := by
  have hcons : ∃ x rest, joinLines (rawLines c) = x :: rest ∧ goIsSpace x = false :=
    ⟨'c', _, rfl, by decide⟩
  rw [formatCommitChars, bodyChars_eq_joinLines,
    trimSpaceChars_eq_trimRight hcons,
    show rawLines c = [lineCommit c, lineRepo c, mergeLineChars c.commit.parentHashes]
        ++ ([lineAuthor c, lineDate c, []] ++ msgLines c) from by
      rw [rawLines, headerLines, if_pos hm]; simp,
    joinLines_append, trimRight_append_of_exists (authorA_mem_tail c)]
  simp [joinLines, List.append_assoc]

/-- The `Merge:` line of a merge commit is one of the lines of the final
formatted block (the later `Author:` line protects it from the trailing
trim). -/
theorem mergeLine_mem_format (c : Commit) (hm : 1 < c.commit.parentHashes.length)
    (hp : ∀ p ∈ c.commit.parentHashes, noNL p) :
    mergeLineChars c.commit.parentHashes ∈ splitOnChar '\n' (formatCommitChars c) := by
  rw [format_merge_decomp c hm, splitOnChar_append_sep, splitOnChar_append_sep,
    splitOnChar_append_sep, splitOnChar_of_not_mem (mergeLineChars_no_newline hp)]
  simp

/-- Every line written by the formatter other than a `Merge:` line starts
with a character other than `M` (or is empty). -/
theorem rawLines_head_ne_M (c : Commit) (hm : ¬ 1 < c.commit.parentHashes.length) :
    ∀ m ∈ rawLines c, ∀ t, m ≠ 'M' :: t := by
  intro m hmem t heq
  rw [rawLines, headerLines, if_neg hm] at hmem
  rcases List.mem_append.mp hmem with hmem | hmem
  · rcases List.mem_append.mp hmem with hmem | hmem
    · rcases List.mem_append.mp hmem with hmem | hmem
      · rcases List.mem_cons.mp hmem with hmem | hmem
        · subst hmem
          rw [show lineCommit c = 'c' :: ("ommit ".data ++ c.commit.hash.data) from rfl] at heq
          simp at heq
        · rcases List.mem_cons.mp hmem with hmem | hmem
          · subst hmem
            rw [show lineRepo c = 'R' :: ("epository: ".data ++ c.repository.name.data) from rfl] at heq
            simp at heq
          · simp at hmem
      · simp at hmem
    · rcases List.mem_cons.mp hmem with hmem | hmem
      · subst hmem
        rw [show lineAuthor c = 'A' :: ("uthor: ".data ++ c.commit.author.name.data
            ++ " <".data ++ c.commit.author.email.data ++ ">".data) from rfl] at heq
        simp at heq
      · rcases List.mem_cons.mp hmem with hmem | hmem
        · subst hmem
          rw [show lineDate c = 'D' :: ("ate:   ".data ++ goFormatTime c.commit.author.when) from rfl] at heq
          simp at heq
        · rcases List.mem_cons.mp hmem with hmem | hmem
          · subst hmem; cases heq
          · simp at hmem
  · rw [msgLines] at hmem
    rcases List.mem_map.mp hmem with ⟨line, _, rfl⟩
    rw [show ("    ".data ++ line) = ' ' :: ("   ".data ++ line) from rfl] at heq
    simp at heq

theorem not_merge_prefix {m m' : List Char} (hhead : ∀ t, m' ≠ 'M' :: t)
    (hpre : m <+: m') : ("Merge:".data).isPrefixOf m = false := by
  by_contra h
  rw [Bool.not_eq_false] at h
  have h2 : "Merge:".data <+: m' := (List.isPrefixOf_iff_prefix.mp h).trans hpre
  rcases h2 with ⟨t, ht⟩
  exact hhead ("erge:".data ++ t) (by rw [← ht]; rfl)

/-- Without a merge commit, no line of the formatted block starts with
`Merge:` — each line is, up to the trailing trim, a prefix of a line whose
first character is not `M`. -/
theorem no_mergeLine_format (c : Commit) (hh : noNL c.commit.hash)
    (hr : noNL c.repository.name) (ha : noNL c.commit.author.name)
    (he : noNL c.commit.author.email)
    (hp : ∀ p ∈ c.commit.parentHashes, noNL p)
    (hm : ¬ 1 < c.commit.parentHashes.length) :
    ∀ m ∈ splitOnChar '\n' (formatCommitChars c),
      ("Merge:".data).isPrefixOf m = false := by
  intro m hmem
  have hcons : ∃ x rest, joinLines (rawLines c) = x :: rest ∧ goIsSpace x = false :=
    ⟨'c', _, rfl, by decide⟩
  have h1 : formatCommitChars c = trimRight (joinLines (rawLines c)) ++ ['\n'] := by
    rw [formatCommitChars, bodyChars_eq_joinLines, trimSpaceChars_eq_trimRight hcons]
  rcases trimRight_eq_take (joinLines (rawLines c)) with ⟨k, hk⟩
  rw [h1, hk, show ((joinLines (rawLines c)).take k ++ ['\n'])
      = ((joinLines (rawLines c)).take k ++ '\n' :: ([] : List Char)) from rfl,
    splitOnChar_append_sep] at hmem
  rcases List.mem_append.mp hmem with hmem | hmem
  · rcases mem_splitOnChar_take _ _ _ _ hmem with ⟨m', hm', hpre⟩
    rw [splitOnChar_joinLines _ (rawLines_no_newline c hh hr ha he hp)] at hm'
    rcases List.mem_append.mp hm' with hm' | hm'
    · exact not_merge_prefix (rawLines_head_ne_M c hm m' hm') hpre
    · have hm'' : m' = [] := by simpa using hm'
      subst hm''
      have : m = [] := List.prefix_nil.mp hpre
      subst this
      decide
  · rw [splitOnChar_nil] at hmem
    have : m = [] := by simpa using hmem
    subst this
    decide

/-- When the last line of the commit message ends in a non-whitespace
character, the trailing trim removes exactly the final newline, and the
formatted block consists of precisely the written lines. -/
theorem format_eq_rawLines (c : Commit) (hh : noNL c.commit.hash)
    (hr : noNL c.repository.name) (ha : noNL c.commit.author.name)
    (he : noNL c.commit.author.email)
    (hp : ∀ p ∈ c.commit.parentHashes, noNL p)
    (hlast : ∃ l0 x, (splitOnChar '\n' c.commit.message.data).getLast? = some (l0 ++ [x])
        ∧ goIsSpace x = false) :
    splitOnChar '\n' (formatCommitChars c) = rawLines c ++ [[]] := by
  rcases hlast with ⟨l0, x, hgl, hx⟩
  have hne := splitOnChar_ne_nil '\n' c.commit.message.data
  have hsplit : splitOnChar '\n' c.commit.message.data =
      (splitOnChar '\n' c.commit.message.data).dropLast ++ [l0 ++ [x]] := by
    have h2 := List.dropLast_append_getLast hne
    have h3 := List.getLast?_eq_getLast _ hne
    rw [h3] at hgl
    have h4 : (splitOnChar '\n' c.commit.message.data).getLast hne = l0 ++ [x] :=
      Option.some.inj hgl
    rw [← h4]
    exact h2.symm
  have hmsglines : msgLines c =
      ((splitOnChar '\n' c.commit.message.data).dropLast).map (fun line => "    ".data ++ line)
        ++ [("    ".data ++ l0) ++ [x]] := by
    rw [msgLines]
    conv_lhs => rw [hsplit]
    rw [List.map_append]
    simp [List.append_assoc]
  have hcons : ∃ x' rest, joinLines (rawLines c) = x' :: rest ∧ goIsSpace x' = false :=
    ⟨'c', _, rfl, by decide⟩
  have hdecomp : joinLines (rawLines c) =
      (joinLines (headerLines c ++ ((splitOnChar '\n' c.commit.message.data).dropLast).map
          (fun line => "    ".data ++ line)) ++ ("    ".data ++ l0)) ++ [x, '\n'] := by
    rw [rawLines]
    conv_lhs => rw [hmsglines]
    rw [← List.append_assoc, joinLines_append]
    simp [joinLines, List.append_assoc]
  have hmain : formatCommitChars c = joinLines (rawLines c) := by
    rw [formatCommitChars, bodyChars_eq_joinLines, trimSpaceChars_eq_trimRight hcons,
      hdecomp, trimRight_append_last _ x hx]
    simp [List.append_assoc]
  rw [hmain, splitOnChar_joinLines _ (rawLines_no_newline c hh hr ha he hp)]

/-! ## Helper lemmas about the walk, the fetcher and the collector -/

theorem walkLog_length_le (repo : Repository) (u : Int) :
    ∀ (n : Nat) (hist : List ObjCommit), (walkLog repo u n hist).length ≤ n := by
  intro n
  induction n with
  | zero => intro hist; simp [walkLog]
  | succ n ih =>
    intro hist
    cases hist with
    | nil => simp [walkLog]
    | cons c rest =>
      rw [walkLog]
      split
      · simp
      · simpa using ih rest

theorem exists_of_mem_walkLog {repo : Repository} {u : Int} :
    ∀ {n : Nat} {hist : List ObjCommit} {rec : Commit},
      rec ∈ walkLog repo u n hist →
      ∃ cm ∈ hist, rec = mkCommit repo cm ∧ ¬(cm.author.when.sec < u) := by
  intro n
  induction n with
  | zero => intro hist rec h; simp [walkLog] at h
  | succ n ih =>
    intro hist rec h
    cases hist with
    | nil => simp [walkLog] at h
    | cons c rest =>
      rw [walkLog] at h
      by_cases hc : c.author.when.sec < u
      · rw [if_pos hc] at h; simp at h
      · rw [if_neg hc] at h
        rcases List.mem_cons.mp h with h | h
        · exact ⟨c, List.mem_cons_self c rest, h, hc⟩
        · rcases ih h with ⟨cm, hmem, heq, hpass⟩
          exact ⟨cm, List.mem_cons_of_mem c hmem, heq, hpass⟩

theorem walkLog_all_pass (repo : Repository) (u : Int) :
    ∀ (n : Nat) (hist : List ObjCommit),
      (∀ cm ∈ hist, ¬(cm.author.when.sec < u)) →
      walkLog repo u n hist = (hist.take n).map (mkCommit repo) := by
  intro n
  induction n with
  | zero => intro hist _; simp [walkLog]
  | succ n ih =>
    intro hist hall
    cases hist with
    | nil => simp [walkLog]
    | cons c rest =>
      rw [walkLog, if_neg (hall c (List.mem_cons_self c rest)),
        ih rest fun cm h => hall cm (List.mem_cons_of_mem c h)]
      simp

theorem mem_walkLog_of_prefix (repo : Repository) (u : Int) (cm : ObjCommit)
    (post : List ObjCommit) :
    ∀ (pre : List ObjCommit) (fuel : Nat), pre.length < fuel →
      (∀ x ∈ pre, ¬(x.author.when.sec < u)) → ¬(cm.author.when.sec < u) →
      mkCommit repo cm ∈ walkLog repo u fuel (pre ++ cm :: post) := by
  intro pre
  induction pre with
  | nil =>
    intro fuel hfuel _ hcm
    cases fuel with
    | zero => omega
    | succ n =>
      rw [List.nil_append, walkLog, if_neg hcm]
      exact List.mem_cons_self _ _
  | cons p pre ih =>
    intro fuel hfuel hpre hcm
    cases fuel with
    | zero => simp at hfuel
    | succ n =>
      rw [List.cons_append, walkLog, if_neg (hpre p (List.mem_cons_self p pre))]
      exact List.mem_cons_of_mem _
        (ih n (by simpa using hfuel) (fun x hx => hpre x (List.mem_cons_of_mem p hx)) hcm)

/-- Control-flow summary of `GetGitLog`: either all four backend operations
succeed and the result is the walked page with a `nil` error, or some
operation fails and the result is the empty list paired with that error. -/
theorem GetGitLog_cases (fetchFlag : Bool) (config : Config) (repo : Repository)
    (be : BackendRepo) (u : Int) :
    GetGitLog fetchFlag config repo be u = (walkLog repo u PAGE_SIZE be.history, none) ∨
      ∃ e, GetGitLog fetchFlag config repo be u = ([], some e) := by
  unfold GetGitLog
  cases hopen : be.openResult with
  | some e => exact Or.inr ⟨e, rfl⟩
  | none =>
    cases hf : (if fetchFlag && repo.fetch then be.fetchResult else FetchResult.ok) with
    | failed e => exact Or.inr ⟨e, rfl⟩
    | ok =>
      cases hres : be.resolveResult with
      | some e => exact Or.inr ⟨e, rfl⟩
      | none =>
        cases hlog : be.logResult with
        | some e => exact Or.inr ⟨e, rfl⟩
        | none => exact Or.inl rfl
    | alreadyUpToDate =>
      cases hres : be.resolveResult with
      | some e => exact Or.inr ⟨e, rfl⟩
      | none =>
        cases hlog : be.logResult with
        | some e => exact Or.inr ⟨e, rfl⟩
        | none => exact Or.inl rfl

theorem GetGitLog_of_backendOK {fetchFlag : Bool} {config : Config} {repo : Repository}
    {be : BackendRepo} {u : Int} (h : backendOK fetchFlag repo be) :
    GetGitLog fetchFlag config repo be u = (walkLog repo u PAGE_SIZE be.history, none) := by
  rcases h with ⟨hopen, hres, hlog, hfetch⟩
  unfold GetGitLog
  rw [hopen, hres, hlog]
  cases hfl : (fetchFlag && repo.fetch) with
  | false => simp
  | true =>
    cases hf : be.fetchResult with
    | failed e => exact absurd hf (hfetch e hfl)
    | ok => simp [hf]
    | alreadyUpToDate => simp [hf]

theorem collectRepos_error_of_exists (fetchFlag : Bool) (config : Config)
    (be : Backend) (u : Int) :
    ∀ rs : List Repository,
      (∃ r ∈ rs, (GetGitLog fetchFlag config r (be r) u).2 ≠ none) →
      ∃ e, (collectRepos fetchFlag config be u rs).2 = .error e := by
  intro rs
  induction rs with
  | nil => intro h; simp at h
  | cons r rs ih =>
    intro h
    rw [collectRepos]
    rcases hg : GetGitLog fetchFlag config r (be r) u with ⟨cs, err⟩
    cases err with
    | some e => exact ⟨e, rfl⟩
    | none =>
      have htail : ∃ r' ∈ rs, (GetGitLog fetchFlag config r' (be r') u).2 ≠ none := by
        rcases h with ⟨r', hr', hne⟩
        rcases List.mem_cons.mp hr' with hr' | hr'
        · subst hr'; rw [hg] at hne; simp at hne
        · exact ⟨r', hr', hne⟩
      rcases ih htail with ⟨e, he⟩
      rcases hc : collectRepos fetchFlag config be u rs with ⟨tr, res⟩
      rw [hc] at he
      cases res with
      | error e' => exact ⟨e', by simp⟩
      | ok rest => simp at he

/-- Monotonicity of the author instant along a `Less`-sorted list. -/
theorem sortedByLess_get_mono {l : List Commit} (hs : sortedByLess l)
    (i j : Fin l.length) (hij : i < j) :
    (l.get j).commit.author.when.sec ≤ (l.get i).commit.author.when.sec := by
  have h := List.pairwise_iff_get.mp hs i j hij
  simp only [gglLess, GTime.after, decide_eq_false_iff_not, not_lt] at h
  exact h

/-- The printed output of one run (lines 214–216): each aggregated record is
rendered by `FormatCommit` and printed in order.  On error nothing is
printed. -/
def RunProduces (fetchFlag : Bool) (untilFlag : String) (cfgRes : Except RunError Config)
    (be : Backend) (now : Int) (out : Except RunError (List String)) : Prop :=
  match (RunM fetchFlag untilFlag cfgRes be now).2 with
  | .error e => out = .error e
  | .ok all => ∃ sorted, SortSortOK all sorted ∧ out = .ok (sorted.map FormatCommit)

/-! ## Concrete example data used by witnesses and counterexamples -/

def mkTime (s : Int) : GTime := ⟨s, 0⟩

def mkSig (nm : String) (s : Int) : GoSignature := ⟨nm, nm ++ "@example.com", mkTime s⟩

/-- A commit with given hash, author instant, committer instant and message. -/
def mkObj (h : String) (a ct : Int) (msg : String) : ObjCommit :=
  ⟨h, [], mkSig "Ann" a, mkSig "Con" ct, msg⟩

def repoA : Repository := ⟨"alpha", "alpha", "origin", "main", false⟩

def cfgA : Config := ⟨[repoA], "/repos"⟩

/-- A backend on which all four operations succeed. -/
def okBackend (hist : List ObjCommit) : BackendRepo := ⟨none, .ok, none, none, hist⟩

/-! ## Claim C1 -/

/-- **C1**: for every run, the aggregated output is sorted by author
timestamp descending: at positions `i < j` the author time of record `i` is
not before the author time of record `j`. -/
theorem claim_c1_sorted_desc (fetchFlag : Bool) (untilFlag : String)
    (cfgRes : Except RunError Config) (be : Backend) (now : Int) (out : List Commit)
    (h : AggregatedProduces fetchFlag untilFlag cfgRes be now out)
    (i j : Fin out.length) (hij : i < j) :
    ¬ ((out.get i).commit.author.when.sec < (out.get j).commit.author.when.sec) := by
  rcases h with ⟨all, _, _, hsorted⟩
  exact not_lt.mpr (sortedByLess_get_mono hsorted i j hij)

def c1hist : List ObjCommit := [mkObj "aa10" 9 30 "first", mkObj "aa11" 5 20 "second"]

def c1out : List Commit := c1hist.map (mkCommit repoA)

/-- **C1** (witness): a two-repository-record run, instantiated at
positions 0 < 1. -/
theorem claim_c1_witness :
    ¬ ((c1out.get ⟨0, by decide⟩).commit.author.when.sec <
        (c1out.get ⟨1, by decide⟩).commit.author.when.sec) :=
  claim_c1_sorted_desc false "" (.ok cfgA) (fun _ => okBackend c1hist) 604800 c1out
    ⟨c1out, rfl, by decide, by decide⟩ ⟨0, by decide⟩ ⟨1, by decide⟩ (by decide)

/-! ## Claim C2 -/

/-- **C2** (amended): equal-timestamp records are contiguous in the
aggregated output (sortedness forces this), but their relative order is NOT
guaranteed to match the input order: `sort.Sort` is not a stable sort — see
`claim_c2_counterexample`. -/
theorem claim_c2_equal_times_contiguous (fetchFlag : Bool) (untilFlag : String)
    (cfgRes : Except RunError Config) (be : Backend) (now : Int) (out : List Commit)
    (h : AggregatedProduces fetchFlag untilFlag cfgRes be now out)
    (i k j : Fin out.length) (hik : i ≤ k) (hkj : k ≤ j)
    (heq : (out.get i).commit.author.when.sec = (out.get j).commit.author.when.sec) :
    (out.get k).commit.author.when.sec = (out.get i).commit.author.when.sec := by
  rcases h with ⟨all, _, _, hsorted⟩
  have h1 : (out.get k).commit.author.when.sec ≤ (out.get i).commit.author.when.sec := by
    rcases eq_or_lt_of_le hik with he | hlt
    · exact le_of_eq (by rw [he])
    · exact sortedByLess_get_mono hsorted i k hlt
  have h2 : (out.get j).commit.author.when.sec ≤ (out.get k).commit.author.when.sec := by
    rcases eq_or_lt_of_le hkj with he | hlt
    · exact le_of_eq (by rw [he])
    · exact sortedByLess_get_mono hsorted k j hlt
  omega

/-- Iterator output of the single repository in the C2 counterexample run:
committer times 70…10 (the go-git `LogOrderCommitterTime` order), author
times `1, 3, 9, 9, 9, 9, 3`. -/
def c2hist : List ObjCommit :=
  [mkObj "b0" 1 70 "m0", mkObj "b1" 3 60 "m1", mkObj "b2" 9 50 "m2",
   mkObj "b3" 9 40 "m3", mkObj "b4" 9 30 "m4", mkObj "b5" 9 20 "m5",
   mkObj "b6" 3 10 "m6"]

def c2be : Backend := fun _ => okBackend c2hist

def c2all : List Commit := c2hist.map (mkCommit repoA)

/-- What Go ≤ 1.18 `sort.Sort` actually computes on `c2all` (length 7 ≤ 12:
gap-6 shell pass, then insertion sort). -/
def c2sorted : List Commit := goSortLE12 gglLess c2all

def c2a : Commit := mkCommit repoA (mkObj "b1" 3 60 "m1")

def c2b : Commit := mkCommit repoA (mkObj "b6" 3 10 "m6")

/-- **C2** (counterexample): in this run the concatenated input has the
equal-timestamp records `c2a` (position 1) before `c2b` (position 6); the
output `c2sorted` — produced by the deterministic Go ≤ 1.18 `sort.Sort` code
path and equally permitted by the `sort.Sort` contract for every Go
version — places `c2b` before `c2a`, so the relative input order of
equal-timestamp records is not preserved. -/
theorem claim_c2_counterexample :
    (RunM false "" (.ok cfgA) c2be 604800).2 = .ok c2all
    ∧ c2sorted = goSortLE12 gglLess c2all
    ∧ AggregatedProduces false "" (.ok cfgA) c2be 604800 c2sorted
    ∧ c2a ∈ c2all ∧ c2b ∈ c2all
    ∧ c2a.commit.author.when.sec = c2b.commit.author.when.sec
    ∧ List.indexOf c2a c2all < List.indexOf c2b c2all
    ∧ List.indexOf c2b c2sorted < List.indexOf c2a c2sorted := by
  refine ⟨rfl, rfl, ⟨c2all, rfl, by decide, by decide⟩,
    by decide, by decide, by decide, by decide, by decide⟩

def cwhist : List ObjCommit :=
  [mkObj "w0" 7 30 "s0", mkObj "w1" 7 20 "s1", mkObj "w2" 7 10 "s2"]

def cwall : List Commit := cwhist.map (mkCommit repoA)

/-- **C2** (witness for the amended claim): three equal-timestamp records;
the middle one carries the same timestamp. -/
theorem claim_c2_witness :
    (cwall.get ⟨1, by decide⟩).commit.author.when.sec =
      (cwall.get ⟨0, by decide⟩).commit.author.when.sec :=
  claim_c2_equal_times_contiguous false "" (.ok cfgA) (fun _ => okBackend cwhist)
    604800 cwall ⟨cwall, rfl, by decide, by decide⟩
    ⟨0, by decide⟩ ⟨1, by decide⟩ ⟨2, by decide⟩ (by decide) (by decide) (by decide)

/-! ## Claim C3 -/

/-- **C3** (amended): every record `GetGitLog` returns has author time not
before the cutoff — the stop test is the strict `Before`, so author time
exactly equal to the cutoff passes it — and a commit whose author time is
not before the cutoff (in particular, exactly equal to it) is included
provided the walk reaches it: it lies among the first 1000 iterated commits
and every commit iterated before it also has author time not before the
cutoff. -/
theorem claim_c3_cutoff (fetchFlag : Bool) (config : Config) (repo : Repository)
    (be : BackendRepo) (u : Int) :
    (∀ rec ∈ (GetGitLog fetchFlag config repo be u).1,
        ¬(rec.commit.author.when.sec < u))
    ∧ (backendOK fetchFlag repo be →
        ∀ pre cm post, be.history = pre ++ cm :: post → pre.length < PAGE_SIZE →
          (∀ x ∈ pre, ¬(x.author.when.sec < u)) → ¬(cm.author.when.sec < u) →
          mkCommit repo cm ∈ (GetGitLog fetchFlag config repo be u).1) := by
  constructor
  · intro rec hrec
    rcases GetGitLog_cases fetchFlag config repo be u with hc | ⟨e, hc⟩
    · rw [hc] at hrec
      rcases exists_of_mem_walkLog hrec with ⟨cm, _, rfl, hpass⟩
      simpa [mkCommit] using hpass
    · rw [hc] at hrec; simp at hrec
  · intro hok pre cm post hhist hlen hpre hcm
    rw [GetGitLog_of_backendOK hok]
    show mkCommit repo cm ∈ walkLog repo u PAGE_SIZE be.history
    rw [hhist]
    exact mem_walkLog_of_prefix repo u cm post pre PAGE_SIZE hlen hpre hcm

/-- First yielded commit of the C3 counterexample: committer instant 100 but
author instant 5 (an everyday rebase/cherry-pick situation). -/
def c3c1 : ObjCommit := mkObj "c30" 5 100 "old author time"

/-- Second yielded commit: author instant exactly the cutoff 10. -/
def c3c2 : ObjCommit := mkObj "c31" 10 50 "author time equals cutoff"

def c3be : BackendRepo := okBackend [c3c1, c3c2]

/-- **C3** (counterexample): with cutoff 10, the walk (iterating in
committer-time order 100, 50) first sees author time 5 < 10 and stops, so
the commit with author time exactly equal to the cutoff is NOT included —
refuting the unconditional "a commit whose author time is exactly equal to
the TimeCutoff is included". -/
theorem claim_c3_counterexample :
    c3c2 ∈ c3be.history ∧ c3c2.author.when.sec = 10
    ∧ (GetGitLog false cfgA repoA c3be 10).1 = []
    ∧ mkCommit repoA c3c2 ∉ (GetGitLog false cfgA repoA c3be 10).1 := by
  exact ⟨by decide, rfl, rfl, by decide⟩

def c3w : ObjCommit := mkObj "c32" 10 50 "boundary"

/-- **C3** (witness): a commit with author time exactly the cutoff, reached
as the first iterated commit, is included. -/
theorem claim_c3_witness :
    (∀ rec ∈ (GetGitLog false cfgA repoA (okBackend [c3w]) 10).1,
        ¬(rec.commit.author.when.sec < 10))
    ∧ mkCommit repoA c3w ∈ (GetGitLog false cfgA repoA (okBackend [c3w]) 10).1 :=
  ⟨(claim_c3_cutoff false cfgA repoA (okBackend [c3w]) 10).1,
   (claim_c3_cutoff false cfgA repoA (okBackend [c3w]) 10).2
     ⟨rfl, rfl, rfl, fun e h => absurd h (by decide)⟩
     [] c3w [] rfl (by decide) (by intro x hx; simp at hx) (by decide)⟩

/-! ## Claim C4 -/

/-- **C4**: `GetGitLog` returns at most `PAGE_SIZE = 1000` records, and
reaching the page bound is not an error: on a fully successful backend the
returned error is `nil`, and when every iterated commit passes the cutoff
the number of records is exactly `min 1000 (history length)` — silent
truncation for histories longer than the page. -/
theorem claim_c4_page_bound (fetchFlag : Bool) (config : Config) (repo : Repository)
    (be : BackendRepo) (u : Int) :
    (GetGitLog fetchFlag config repo be u).1.length ≤ PAGE_SIZE
    ∧ (backendOK fetchFlag repo be → (GetGitLog fetchFlag config repo be u).2 = none)
    ∧ (backendOK fetchFlag repo be →
        (∀ cm ∈ be.history, ¬(cm.author.when.sec < u)) →
        (GetGitLog fetchFlag config repo be u).1.length = min PAGE_SIZE be.history.length) := by
  refine ⟨?_, ?_, ?_⟩
  · rcases GetGitLog_cases fetchFlag config repo be u with hc | ⟨e, hc⟩
    · rw [hc]; exact walkLog_length_le repo u PAGE_SIZE be.history
    · rw [hc]; simp [PAGE_SIZE]
  · intro hok
    rw [GetGitLog_of_backendOK hok]
  · intro hok hall
    rw [GetGitLog_of_backendOK hok]
    show (walkLog repo u PAGE_SIZE be.history).length = _
    rw [walkLog_all_pass repo u PAGE_SIZE be.history hall]
    simp

/-- A history of 1001 commits, all passing any cutoff ≤ 5. -/
def bigHist : List ObjCommit := List.replicate 1001 (mkObj "dd" 5 5 "m")

/-- **C4** (witness): on the 1001-commit history the fetcher returns exactly
1000 records and no error. -/
theorem claim_c4_witness :
    (GetGitLog false cfgA repoA (okBackend bigHist) 0).2 = none
    ∧ (GetGitLog false cfgA repoA (okBackend bigHist) 0).1.length
        = min PAGE_SIZE bigHist.length := by
  have hall : ∀ cm ∈ bigHist, ¬(cm.author.when.sec < 0) := by
    intro cm hcm
    rw [List.eq_of_mem_replicate hcm]
    decide
  have hok : backendOK false repoA (okBackend bigHist) :=
    ⟨rfl, rfl, rfl, fun e h => absurd h (by decide)⟩
  exact ⟨(claim_c4_page_bound false cfgA repoA (okBackend bigHist) 0).2.1 hok,
    (claim_c4_page_bound false cfgA repoA (okBackend bigHist) 0).2.2 hok hall⟩

/-! ## Claim C5 -/

/-- **C5**: if any configured repository's retrieval fails, the run aborts
with that backend error surfaced as the run error, and no commit blocks are
printed — the successful output case is impossible. -/
theorem claim_c5_fail_fast (fetchFlag : Bool) (untilFlag : String) (cfg : Config)
    (be : Backend) (now u : Int)
    (hu : resolveUntil untilFlag now = .ok u)
    (hfail : ∃ r ∈ cfg.repositories, (GetGitLog fetchFlag cfg r (be r) u).2 ≠ none)
    (out : Except RunError (List String))
    (hout : RunProduces fetchFlag untilFlag (.ok cfg) be now out) :
    (∃ e, out = .error (.gitErr e)) ∧ ∀ blocks, out ≠ .ok blocks := by
  rcases collectRepos_error_of_exists fetchFlag cfg be u cfg.repositories hfail with ⟨e, he⟩
  rcases hc : collectRepos fetchFlag cfg be u cfg.repositories with ⟨tr, res⟩
  rw [hc] at he
  have he' : res = .error e := he
  subst he'
  have hrun : (RunM fetchFlag untilFlag (.ok cfg) be now).2 = .error (.gitErr e) := by
    simp only [RunM, hu, hc]
  rw [RunProduces] at hout
  rw [hrun] at hout
  simp only at hout
  exact ⟨⟨e, hout⟩, by simp [hout]⟩

def c5be : Backend := fun _ => ⟨some (.openErr "repository does not exist"), .ok, none, none, []⟩

/-- **C5** (witness): a run whose single repository fails to open produces
the surfaced open error and no block list. -/
theorem claim_c5_witness :
    (∃ e, (Except.error (RunError.gitErr (.openErr "repository does not exist")) :
        Except RunError (List String)) = .error (.gitErr e))
    ∧ ∀ blocks, (Except.error (RunError.gitErr (.openErr "repository does not exist")) :
        Except RunError (List String)) ≠ .ok blocks :=
  claim_c5_fail_fast false "" cfgA c5be 604800 0 rfl
    ⟨repoA, by decide, by decide⟩ _ (by rw [RunProduces]; rfl)

/-! ## Claim C8 -/

/-- **C8**: a non-empty `--until` value that does not parse as a
`YYYY-MM-DD` calendar date makes the run fail with the input error before
any repository is touched: the trace of opened repositories is empty and the
result is the input error, for every backend and configuration. -/
theorem claim_c8_invalid_until (fetchFlag : Bool) (cfg : Config) (be : Backend)
    (now : Int) (s : String) (hne : s ≠ "") (hbad : parseDate s = none) :
    RunM fetchFlag s (.ok cfg) be now = ([], .error .inputErr) := by
  unfold RunM resolveUntil
  rw [if_neg hne, hbad]

/-- **C8** (witness): `--until 2022-13-01` (month 13) for an arbitrary
one-repository run: input error, no repository opened. -/
theorem claim_c8_witness :
    RunM false "2022-13-01" (.ok cfgA) (fun _ => okBackend c1hist) 604800
      = ([], .error .inputErr) :=
  claim_c8_invalid_until false cfgA (fun _ => okBackend c1hist) 604800
    "2022-13-01" (by decide) (by decide)

/-! ## Claim C9 -/

/-- **C9** (amended): the `ShortHash` field of every record constructed
during retrieval is the empty string — it is declared on the struct but
never assigned in `GetGitLog`; 9-character abbreviation happens only in the
formatter's `Merge:` line. -/
theorem claim_c9_shorthash_empty (fetchFlag : Bool) (config : Config)
    (repo : Repository) (be : BackendRepo) (u : Int) :
    ∀ rec ∈ (GetGitLog fetchFlag config repo be u).1, rec.shortHash = "" := by
  intro rec hrec
  rcases GetGitLog_cases fetchFlag config repo be u with hc | ⟨e, hc⟩
  · rw [hc] at hrec
    rcases exists_of_mem_walkLog hrec with ⟨cm, _, rfl, _⟩
    rfl
  · rw [hc] at hrec; simp at hrec

def c9cm : ObjCommit :=
  mkObj "0123456789abcdef0123456789abcdef01234567" 5 5 "subject\nbody"

/-- **C9** (counterexample): the record retrieved for a 40-character hash
carries `ShortHash = ""`, which differs from the first 9 hex characters of
its full hash. -/
theorem claim_c9_counterexample :
    (GetGitLog false cfgA repoA (okBackend [c9cm]) 0).1 = [mkCommit repoA c9cm]
    ∧ (mkCommit repoA c9cm).shortHash = ""
    ∧ String.mk (c9cm.hash.data.take 9) = "012345678"
    ∧ (mkCommit repoA c9cm).shortHash ≠ String.mk (c9cm.hash.data.take 9) := by
  exact ⟨rfl, rfl, by decide, by decide⟩

/-- **C9** (witness for the amended claim). -/
theorem claim_c9_witness :
    (mkCommit repoA c9cm).shortHash = "" :=
  claim_c9_shorthash_empty false cfgA repoA (okBackend [c9cm]) 0
    (mkCommit repoA c9cm) (by decide)

/-! ## Claim C10 -/

/-- **C10**: whenever `GetGitLog` returns a non-nil error, the returned
commit list is empty — every error return happens before the first append. -/
theorem claim_c10_error_empty (fetchFlag : Bool) (config : Config)
    (repo : Repository) (be : BackendRepo) (u : Int) (e : GitError)
    (h : (GetGitLog fetchFlag config repo be u).2 = some e) :
    (GetGitLog fetchFlag config repo be u).1 = [] := by
  rcases GetGitLog_cases fetchFlag config repo be u with hc | ⟨e', hc⟩
  · rw [hc] at h; simp at h
  · rw [hc]

def c10be : BackendRepo :=
  ⟨none, .ok, some (.resolveErr "reference not found"), none, [mkObj "ee" 5 5 "m"]⟩

/-- **C10** (witness): a failing revision resolution yields an error and the
empty list. -/
theorem claim_c10_witness :
    (GetGitLog false cfgA repoA c10be 0).1 = [] :=
  claim_c10_error_empty false cfgA repoA c10be 0 (.resolveErr "reference not found") rfl

/-! ## Claim C6 -/

/-- **C6**: the formatter emits a line starting with `Merge:` if and only if
the commit has more than one parent, and in that case the `Merge:` line
lists every parent hash abbreviated to its first 9 characters,
space-separated, as one single line of the block.  The hypotheses say the
identity fields themselves contain no newline (true of real git data; the
message is arbitrary). -/
theorem claim_c6_merge_line (c : Commit) (hh : noNL c.commit.hash)
    (hr : noNL c.repository.name) (ha : noNL c.commit.author.name)
    (he : noNL c.commit.author.email)
    (hp : ∀ p ∈ c.commit.parentHashes, noNL p) :
    ((∃ m ∈ splitOnChar '\n' (FormatCommit c).data, ("Merge:".data).isPrefixOf m = true) ↔
        1 < c.commit.parentHashes.length)
    ∧ (1 < c.commit.parentHashes.length →
        ("Merge:".data ++ (c.commit.parentHashes.map (fun p => ' ' :: p.data.take 9)).flatten)
          ∈ splitOnChar '\n' (FormatCommit c).data) := by
  have hdata : (FormatCommit c).data = formatCommitChars c := rfl
  constructor
  · constructor
    · rintro ⟨m, hmem, hpre⟩
      by_contra hm
      rw [hdata] at hmem
      rw [no_mergeLine_format c hh hr ha he hp hm m hmem] at hpre
      cases hpre
    · intro hm
      refine ⟨mergeLineChars c.commit.parentHashes, ?_, ?_⟩
      · rw [hdata]; exact mergeLine_mem_format c hm hp
      · exact List.isPrefixOf_iff_prefix.mpr ⟨_, rfl⟩
  · intro hm
    rw [hdata]
    exact mergeLine_mem_format c hm hp

def c6m : ObjCommit :=
  { hash := "76f3a7f2d88cbdbdaa5e8f81287afcbd6b036bb1"
    parentHashes := ["0123456789abcdef0123456789abcdef01234567",
                     "fedcba9876543210fedcba9876543210fedcba98"]
    author := mkSig "Ann" 5
    committer := mkSig "Con" 5
    message := "merge branch" }

def c6c : Commit := mkCommit repoA c6m

/-- **C6** (witness): a two-parent commit renders the `Merge:` line with
both parent hashes abbreviated to 9 characters. -/
theorem claim_c6_witness :
    ("Merge:".data ++ (c6c.commit.parentHashes.map (fun p => ' ' :: p.data.take 9)).flatten)
      ∈ splitOnChar '\n' (FormatCommit c6c).data :=
  (claim_c6_merge_line c6c (by decide) (by decide) (by decide) (by decide)
    (by decide)).2 (by decide)

/-! ## Claim C7 -/

/-- **C7** (amended): each message line is indented by exactly FOUR leading
spaces — the three-space literal plus the separator space `Fprintln` inserts
between its operands — not three; the final `TrimSpace` removes trailing
whitespace of the block, so for a message whose last line ends in a
non-whitespace character the block's lines are exactly the header lines
followed by every message line (blank interior lines included) prefixed
with four spaces, plus the empty component of the final newline. -/
theorem claim_c7_indent (c : Commit) (hh : noNL c.commit.hash)
    (hr : noNL c.repository.name) (ha : noNL c.commit.author.name)
    (he : noNL c.commit.author.email)
    (hp : ∀ p ∈ c.commit.parentHashes, noNL p)
    (hlast : ∃ l0 x, (splitOnChar '\n' c.commit.message.data).getLast? = some (l0 ++ [x])
        ∧ goIsSpace x = false) :
    splitOnChar '\n' (FormatCommit c).data =
      headerLines c
        ++ (splitOnChar '\n' c.commit.message.data).map (fun line => "    ".data ++ line)
        ++ [[]] := by
  have h := format_eq_rawLines c hh hr ha he hp hlast
  rw [show (FormatCommit c).data = formatCommitChars c from rfl, h, rawLines, msgLines]

def c7c : Commit := mkCommit repoA (mkObj "deadbeef00" 0 0 "a")

/-- **C7** (counterexample): the message line `a` appears in the block with
FOUR leading spaces; the three-space indented form claimed by the
specification appears on no line. -/
theorem claim_c7_counterexample :
    ("   a".data ∉ splitOnChar '\n' (FormatCommit c7c).data)
    ∧ ("    a".data ∈ splitOnChar '\n' (FormatCommit c7c).data)
    ∧ splitOnChar '\n' c7c.commit.message.data = ["a".data] := by
  refine ⟨by decide, by decide, by decide⟩

def c7w : Commit := mkCommit repoA (mkObj "beadfeed22" 0 0 "subject\n\nbody text.")

/-- **C7** (witness for the amended claim): a three-line message with a
blank interior line; every message line appears with exactly four leading
spaces. -/
theorem claim_c7_witness :
    splitOnChar '\n' (FormatCommit c7w).data =
      headerLines c7w
        ++ (splitOnChar '\n' c7w.commit.message.data).map (fun line => "    ".data ++ line)
        ++ [[]] :=
  claim_c7_indent c7w (by decide) (by decide) (by decide) (by decide) (by decide)
    ⟨"body text".data, '.', by decide, by decide⟩


end Ggl
